import Mathlib

/-!
Verification of the dice-roll launcher plugin (`__init__.py`).

The embedding is shallow:
* strings are `List Char`;
* the process-wide pseudo-random source (`random`) is a stream `g : Nat → Nat`
  of raw draws, consumed at successive indices; `random.randint(a, b)` maps a
  raw draw into the inclusive range `[a, b]` and fails when the range is empty,
  exactly as the Python call raises `ValueError`;
* the filesystem probed by `Path.exists` is an oracle `fs : String → Bool`;
* Python exceptions are `Except String`;
* the host calls `albert.warn` / `albert.info` are recorded in the result of
  `handleQuery`.

The two compiled regexes of the source are embedded twice: once as literal
regex syntax trees (`single_dice_regex`, `multiple_dice_regex`) with a
standard matching semantics `Matches`, and once as executable scanners
(`single_dice_findall`, `multiple_dice_fullmatch`) that implement the
backtracking behaviour of `re.findall` / `re.fullmatch` on these patterns.
The equivalence of the executable full matcher with the literal pattern is
proved below (`multiple_dice_fullmatch_iff_matches`), so the executable
definition is justified against the literal source pattern.

Character classes follow the patterns: `\d` is a decimal digit, `\D` its
complement, and the letter `d` is matched case-insensitively (flag `re.I`).
-/

/-- The character class of the separator letter `d` under the `re.I` flag. -/
def isD (c : Char) : Bool := c == 'd' || c == 'D'

/-- Base-10 value of a digit string, as Python `int` applied to a capture. -/
def digitsToNat (cs : List Char) : Nat :=
  cs.foldl (fun a c => 10 * a + (c.toNat - 48)) 0

/-- The class `\D` of the separator runs: any character that is not a digit. -/
def isSep (c : Char) : Bool := !c.isDigit

/-! ### A small toolkit about `takeWhile` / `dropWhile` -/

theorem length_dropWhile_le' {α : Type} (p : α → Bool) (l : List α) :
    (l.dropWhile p).length ≤ l.length := by
  induction l with
  | nil => simp [List.dropWhile]
  | cons c cs ih =>
    cases hpc : p c
    · simp [List.dropWhile, hpc]
    · simp only [List.dropWhile, hpc]
      exact Nat.le_succ_of_le ih

theorem mem_takeWhile_sat {α : Type} (p : α → Bool) (l : List α) :
    ∀ a ∈ l.takeWhile p, p a = true := by
  induction l with
  | nil => simp [List.takeWhile]
  | cons c cs ih =>
    cases hpc : p c
    · simp [List.takeWhile, hpc]
    · simp only [List.takeWhile, hpc]
      intro a ha
      rcases List.mem_cons.mp ha with h | h
      · rw [h]; exact hpc
      · exact ih a h

theorem takeWhile_append_of_all {α : Type} {p : α → Bool} {l : List α}
    (r : List α) (h : ∀ a ∈ l, p a = true) :
    (l ++ r).takeWhile p = l ++ r.takeWhile p := by
  induction l with
  | nil => simp
  | cons c cs ih =>
    have hc : p c = true := h c (List.mem_cons_self c cs)
    simp only [List.cons_append, List.takeWhile, hc]
    exact congrArg (List.cons c) (ih (fun a ha => h a (List.mem_cons_of_mem c ha)))

theorem dropWhile_append_of_all {α : Type} {p : α → Bool} {l : List α}
    (r : List α) (h : ∀ a ∈ l, p a = true) :
    (l ++ r).dropWhile p = r.dropWhile p := by
  induction l with
  | nil => simp
  | cons c cs ih =>
    have hc : p c = true := h c (List.mem_cons_self c cs)
    simp only [List.cons_append, List.dropWhile, hc]
    exact ih (fun a ha => h a (List.mem_cons_of_mem c ha))

theorem takeWhile_cons_of_neg {α : Type} {p : α → Bool} {c : α}
    (r : List α) (h : p c = false) : (c :: r).takeWhile p = [] := by
  simp [List.takeWhile, h]

theorem dropWhile_cons_of_neg {α : Type} {p : α → Bool} {c : α}
    (r : List α) (h : p c = false) : (c :: r).dropWhile p = c :: r := by
  simp [List.dropWhile, h]

theorem takeWhile_all_of_all {α : Type} {p : α → Bool} {l : List α}
    (h : ∀ a ∈ l, p a = true) : l.takeWhile p = l := by
  have := takeWhile_append_of_all (p := p) [] h
  simpa using this

theorem dropWhile_nil_of_all {α : Type} {p : α → Bool} {l : List α}
    (h : ∀ a ∈ l, p a = true) : l.dropWhile p = [] := by
  have := dropWhile_append_of_all (p := p) [] h
  simpa using this

/-! ### The two source patterns as literal regex syntax trees -/

/-- Regex syntax trees: character classes, the `$` anchor, concatenation,
alternation and one-or-more repetition, enough for the two source patterns. -/
inductive Re where
  | cls (p : Char → Bool)
  | eos
  | seq (a b : Re)
  | alt (a b : Re)
  | plus (a : Re)

/-- `Matches r s t` : starting from the input suffix `s`, the pattern `r`
matches a prefix of `s` and leaves the suffix `t`.  Only genuine suffixes of
the full input are ever threaded, so `Re.eos` (the `$` anchor, which matches
the empty string at the very end of the input) holds exactly at `[]`. -/
inductive Matches : Re → List Char → List Char → Prop where
  | cls {p : Char → Bool} {c : Char} {t : List Char} :
      p c = true → Matches (.cls p) (c :: t) t
  | eos : Matches .eos [] []
  | seq {a b : Re} {s u t : List Char} :
      Matches a s u → Matches b u t → Matches (.seq a b) s t
  | altL {a b : Re} {s t : List Char} :
      Matches a s t → Matches (.alt a b) s t
  | altR {a b : Re} {s t : List Char} :
      Matches b s t → Matches (.alt a b) s t
  | plus1 {a : Re} {s t : List Char} :
      Matches a s t → Matches (.plus a) s t
  | plusN {a : Re} {s u t : List Char} :
      Matches a s u → Matches (.plus a) u t → Matches (.plus a) s t

/-- `re.compile(r"(\d+)d(\d+)", re.I)` as a literal syntax tree. -/
def single_dice_regex : Re :=
  .seq (.plus (.cls Char.isDigit)) (.seq (.cls isD) (.plus (.cls Char.isDigit)))

/-- `re.compile(r"(?:(\d+)d(\d+)(?:\D+|$))+", re.I)` as a literal syntax tree. -/
def multiple_dice_regex : Re :=
  .plus (.seq single_dice_regex (.alt (.plus (.cls isSep)) .eos))

/-! ### The executable behaviour of `re.findall` and `re.fullmatch` -/

/-- One attempt of `single_dice_regex` at the start of `s`: the greedy-maximal
digit run, the case-insensitive `d`, the second greedy-maximal digit run.
On success it yields the two captures (as numbers) and the rest of the input.
Backtracking cannot help this pattern: shrinking a `\d+` leaves a digit where
a non-digit is required, so the maximal-munch attempt is the only one. -/
def tryMatch (s : List Char) : Option (Nat × Nat × List Char) :=
  match s.takeWhile Char.isDigit, s.dropWhile Char.isDigit with
  | [], _ => none
  | _ :: _, [] => none
  | d1 :: r1, c :: t2 =>
    if isD c then
      match t2.takeWhile Char.isDigit with
      | [] => none
      | d2 :: r2 =>
        some (digitsToNat (d1 :: r1), digitsToNat (d2 :: r2),
          t2.dropWhile Char.isDigit)
    else none

/-- Inversion for a successful `tryMatch`: the input decomposes as
`digits ++ d ++ digits ++ rest` and the captures are the two digit runs. -/
theorem tryMatch_some {s : List Char} {x : Nat × Nat × List Char}
    (h : tryMatch s = some x) :
    ∃ d1 c d2,
      d1 ≠ [] ∧ (∀ a ∈ d1, a.isDigit = true) ∧ isD c = true ∧
      d2 ≠ [] ∧ (∀ a ∈ d2, a.isDigit = true) ∧
      s = d1 ++ c :: (d2 ++ x.2.2) ∧
      x.1 = digitsToNat d1 ∧ x.2.1 = digitsToNat d2 := by
  unfold tryMatch at h
  split at h
  next => exact absurd h (by simp)
  next => exact absurd h (by simp)
  next d1h r1 c t2 htake hdrop =>
    split at h
    next hd =>
      split at h
      next => exact absurd h (by simp)
      next d2h r2 htake2 =>
        injection h with h
        subst h
        refine ⟨d1h :: r1, c, d2h :: r2, by simp, ?_, hd, by simp, ?_, ?_, rfl, rfl⟩
        · rw [← htake]; exact mem_takeWhile_sat Char.isDigit s
        · rw [← htake2]; exact mem_takeWhile_sat Char.isDigit t2
        · conv_lhs => rw [← List.takeWhile_append_dropWhile (p := Char.isDigit) (l := s)]
          rw [htake, hdrop]
          show d1h :: (r1 ++ c :: t2) = d1h :: (r1 ++ c :: ((d2h :: r2) ++ _))
          rw [← htake2]
          conv_lhs => rw [← List.takeWhile_append_dropWhile (p := Char.isDigit) (l := t2)]
    next => exact absurd h (by simp)

theorem tryMatch_length {s : List Char} {x : Nat × Nat × List Char}
    (h : tryMatch s = some x) : x.2.2.length < s.length := by
  obtain ⟨d1, c, d2, h1, -, -, h2, -, hs, -⟩ := tryMatch_some h
  rw [hs]
  have : 0 < d1.length := List.length_pos.mpr h1
  simp only [List.length_append, List.length_cons]
  omega

/-- The scan of `re.findall`: at every position try `tryMatch`; on a match,
emit the captures and resume right after the match, else advance one
character.  The scan shortens the input at every step, so the explicit
recursion bound `fuel` never runs out when it starts at the input length;
it is an artifact of the embedding, not of the source. -/
def findallAux : Nat → List Char → List (Nat × Nat)
  | _, [] => []
  | 0, _ :: _ => []
  | fuel + 1, c :: cs =>
    match tryMatch (c :: cs) with
    | some x => (x.1, x.2.1) :: findallAux fuel x.2.2
    | none => findallAux fuel cs

/-- `single_dice_regex.findall(query_string)`: scan left to right, taking
every non-overlapping leftmost match of `(\d+)d(\d+)` and resuming right
after it, without requiring the matches to cover the string. -/
def single_dice_findall (s : List Char) : List (Nat × Nat) :=
  findallAux s.length s

/-- One step of the full matcher behind `multiple_dice_regex.fullmatch`:
consume the greedy-maximal `\d+`, the `d`, the second greedy-maximal `\d+`,
then the greedy-maximal `\D*` run; accept when the input is exhausted (this
covers both the `\D+`-to-the-end and the `$` alternatives), otherwise demand
a non-empty separator run and iterate.  As for `findallAux`, `fuel` is an
artifact of the embedding, sufficient whenever it starts at the input
length. -/
def fullmatchAux : Nat → List Char → Bool
  | 0, _ => false
  | fuel + 1, s =>
    match s.takeWhile Char.isDigit, s.dropWhile Char.isDigit with
    | [], _ => false
    | _ :: _, [] => false
    | _ :: _, c :: t2 =>
      if isD c then
        match t2.takeWhile Char.isDigit with
        | [] => false
        | _ :: _ =>
          match (t2.dropWhile Char.isDigit).dropWhile isSep with
          | [] => true
          | c4 :: t5 =>
            match (t2.dropWhile Char.isDigit).takeWhile isSep with
            | [] => false
            | _ :: _ => fullmatchAux fuel (c4 :: t5)
      else false

/-- `multiple_dice_regex.fullmatch(query_string)` as a Boolean: one or more
repetitions of `(\d+)d(\d+)` each followed by a non-empty run of non-digits
(`\D+`) or by the end of the string (`$`), consuming the whole input.  The
scanner is maximal-munch; backtracking cannot rescue a failed greedy attempt
on this pattern (shrinking any greedy run leaves a character of the same
class where the pattern next requires the complementary class), which is
proved via `multiple_dice_fullmatch_iff_matches`. -/
def multiple_dice_fullmatch (s : List Char) : Bool :=
  fullmatchAux s.length s

/-! ### The dice roller, the result items and the query handler -/

/-- `random.randint(a, b)`: an integer in the inclusive range `[a, b]`, built
from one raw draw `r` of the shared pseudo-random source; raises `ValueError`
when the range is empty (`b < a`), as `randrange(a, b + 1)` does. -/
def randint (a b : Nat) (r : Nat) : Except String Nat :=
  if b < a then
    .error ("empty range for randrange() (" ++ toString a ++ ", "
      ++ toString (b + 1) ++ ", " ++ toString (b + 1 - a) ++ ")")
  else .ok (a + r % (b + 1 - a))

/-- The list comprehension `[random.randint(1, num_sides) for _ in
range(num_dice)]`: one draw per die, consumed from the stream `g` at the
successive indices `start, start + 1, ...` in generation order. -/
def roll_list (num_dice num_sides : Nat) (g : Nat → Nat) (start : Nat) :
    Except String (List Nat) :=
  match num_dice with
  | 0 => .ok []
  | n + 1 =>
    match randint 1 num_sides (g start) with
    | .error e => .error e
    | .ok r =>
      match roll_list n num_sides g (start + 1) with
      | .error e => .error e
      | .ok rest => .ok (r :: rest)

/-- `roll_dice(num_dice, num_sides)`: returns `(sum(rolls), rolls)`. -/
def roll_dice (num_dice num_sides : Nat) (g : Nat → Nat) (start : Nat) :
    Except String (Nat × List Nat) :=
  match roll_list num_dice num_sides g start with
  | .error e => .error e
  | .ok rolls => .ok (rolls.sum, rolls)

/-- `__title__` of the module. -/
def title : String := "Dice Roll"

/-- The fixed icons directory `Path(__file__).parent / "icons"`.  The parent
directory of the module file is external to the core, so the directory is
modelled as this fixed string; every claim about icon resolution is relative
to it. -/
def icons_path : String := "icons"

/-- How a Python f-string renders an `Optional[int]`: the numeral, or the
text `None`. -/
def pyStrOptNat : Option Nat → String
  | some n => toString n
  | none => "None"

/-- Python truthiness of an `Optional[int]`: `None` and `0` are falsy. -/
def optTruthy : Option Nat → Bool
  | some n => decide (n ≠ 0)
  | none => false

/-- `get_icon_path(num_sides)`: the icon `d{num_sides}.svg` when that file
exists (else `d20.svg`), overridden to `dice.svg` when `num_sides is None`.
The filesystem probe `Path(...).exists()` is the oracle `fs`. -/
def get_icon_path (fs : String → Bool) (num_sides : Option Nat) : String :=
  let icon :=
    if fs (icons_path ++ "/d" ++ pyStrOptNat num_sides ++ ".svg")
    then "d" ++ pyStrOptNat num_sides
    else "d20"
  let icon := if num_sides = none then "dice" else icon
  icons_path ++ "/" ++ icon ++ ".svg"

/-- `albert.ClipAction(text, clipboardText)`. -/
structure ClipAction where
  action_text : String
  clipboardText : String
deriving DecidableEq

/-- `albert.Item(id=..., icon=..., text=..., subtext=..., actions=...)`. -/
structure Item where
  item_id : String
  icon : String
  text : String
  subtext : String
  actions : List ClipAction
deriving DecidableEq

/-- `", ".join(map(str, rolls))`. -/
def joinComma (rolls : List Nat) : String :=
  String.intercalate ", " (rolls.map toString)

/-- `get_item_from_rolls(rolls, sum_rolls, num_sides)`: the displayed entry.
The headline tests the truthiness of `num_sides` (so `None` and `0` both give
the overall-total form), the subtext lists the rolls joined by `", "`, and the
two actions copy the total and the joined rolls. -/
def get_item_from_rolls (fs : String → Bool) (rolls : List Nat)
    (sum_rolls : Nat) (num_sides : Option Nat) : Item :=
  { item_id := title
    icon := get_icon_path fs num_sides
    text :=
      if optTruthy num_sides then
        "Rolled " ++ toString rolls.length ++ "d" ++ pyStrOptNat num_sides
          ++ " - Total: " ++ toString sum_rolls
      else "Overall Total: " ++ toString sum_rolls
    subtext := "Rolls: " ++ joinComma rolls
    actions :=
      [⟨"Copy total to clipboard", toString sum_rolls⟩,
       ⟨"Copy rolls to clipboard", joinComma rolls⟩] }

/-- The body of the `for match in matches` loop of `get_items`, with the
running aggregates: returns the group items, the running total
`sum_all_rolls`, the flattened list `all_rolls`, and the next unread index of
the random stream. -/
def get_items_aux (fs : String → Bool) (g : Nat → Nat) :
    List (Nat × Nat) → Nat → Except String (List Item × Nat × List Nat × Nat)
  | [], idx => .ok ([], 0, [], idx)
  | (num_dice, num_sides) :: rest, idx =>
    match roll_dice num_dice num_sides g idx with
    | .error e => .error e
    | .ok (sum_rolls, rolls) =>
      match get_items_aux fs g rest (idx + num_dice) with
      | .error e => .error e
      | .ok (items, sumAll, allRolls, idx2) =>
        .ok (get_item_from_rolls fs rolls sum_rolls (some num_sides) :: items,
          sum_rolls + sumAll, rolls ++ allRolls, idx2)

/-- `get_items(query_string)`: one group item per extracted `(count, sides)`
pair, in match order, plus the overall-total summary item exactly when more
than one pair matched. -/
def get_items (query_string : List Char) (fs : String → Bool) (g : Nat → Nat) :
    Except String (List Item) :=
  match get_items_aux fs g (single_dice_findall query_string) 0 with
  | .error e => .error e
  | .ok (results, sum_all_rolls, all_rolls, _) =>
    .ok (if 1 < (single_dice_findall query_string).length then
        results ++ [get_item_from_rolls fs all_rolls sum_all_rolls none]
      else results)

/-- `query.string.strip()`: leading and trailing whitespace removed. -/
def pyStrip (s : List Char) : List Char :=
  ((s.dropWhile Char.isWhitespace).reverse.dropWhile Char.isWhitespace).reverse

/-- The fixed notice shown through `albert.info` on an internal failure. -/
def wrongFormatMsg : String :=
  "Something went wrong. Make sure you're using the correct format."

/-- What a call of `handleQuery` leaves observable at the host boundary:
the returned value (`none` models Python returning `None`), the payloads
passed to `albert.warn` and those passed to `albert.info`. -/
structure HQResult where
  items : Option (List Item)
  warns : List String
  infos : List String
deriving DecidableEq

/-- `handleQuery(query)`: strip the query text, validate it against
`multiple_dice_regex.fullmatch`, and return the items of `get_items`; any
exception is swallowed, reported once through `albert.warn` (the error
object) and once through `albert.info` (the fixed notice), after which the
function falls through and returns `None`.  A failed validation also returns
`None`, with no host diagnostics at all. -/
def handleQuery (query : List Char) (fs : String → Bool) (g : Nat → Nat) :
    HQResult :=
  let query_string := pyStrip query
  if multiple_dice_fullmatch query_string then
    match get_items query_string fs g with
    | .ok items => ⟨some items, [], []⟩
    | .error e => ⟨none, [e], [wrongFormatMsg]⟩
  else ⟨none, [], []⟩

/-! ### Specification-side predicates used in the claims -/

/-- The property the spec states as an invariant of every displayed entry:
the subtext lists a sequence of rolls and the integer displayed after
`Total:` in the headline is exactly their sum. -/
def ItemTotalInv (it : Item) : Prop :=
  ∃ rolls : List Nat,
    it.subtext = "Rolls: " ++ joinComma rolls ∧
    (it.text = "Overall Total: " ++ toString rolls.sum ∨
      ∃ c n : Nat,
        it.text = "Rolled " ++ toString c ++ "d" ++ toString n
          ++ " - Total: " ++ toString rolls.sum)

/-! ### The dice roller -/

theorem roll_list_ok {num_sides : Nat} (h : 1 ≤ num_sides) (g : Nat → Nat) :
    ∀ (n start : Nat),
      roll_list n num_sides g start =
        .ok ((List.range n).map (fun i => 1 + g (start + i) % num_sides)) := by
  intro n
  induction n with
  | zero => intro start; rfl
  | succ n ih =>
    intro start
    have hr : randint 1 num_sides (g start) = .ok (1 + g start % num_sides) := by
      unfold randint
      rw [if_neg (by omega)]
      have h2 : num_sides + 1 - 1 = num_sides := by omega
      rw [h2]
    show (match randint 1 num_sides (g start) with
      | Except.error e => Except.error e
      | Except.ok r =>
        match roll_list n num_sides g (start + 1) with
        | Except.error e => Except.error e
        | Except.ok rest => Except.ok (r :: rest)) = _
    rw [hr, ih (start + 1)]
    show Except.ok ((1 + g start % num_sides) ::
      (List.range n).map (fun i => 1 + g (start + 1 + i) % num_sides)) = _
    rw [List.range_succ_eq_map, List.map_cons, List.map_map]
    have h3 : (fun i => 1 + g (start + 1 + i) % num_sides) =
        ((fun i => 1 + g (start + i) % num_sides) ∘ Nat.succ) := by
      funext i
      have h4 : start + 1 + i = start + (i + 1) := by omega
      rw [h4]
      rfl
    rw [h3]
    rfl

theorem roll_dice_ok_sum {nd ns start : Nat} {g : Nat → Nat} {y : Nat × List Nat}
    (h : roll_dice nd ns g start = .ok y) : y.1 = y.2.sum := by
  unfold roll_dice at h
  cases hrl : roll_list nd ns g start <;> rw [hrl] at h
  · exact absurd h (by simp)
  · injection h with h
    rw [← h]

/-! ### The aggregation loop of `get_items` -/

/-- What a successful pass of the `for` loop produces: one group item per
`(count, sides)` pair in order, the running total and the flattened rolls. -/
theorem get_items_aux_ok {fs : String → Bool} {g : Nat → Nat} :
    ∀ (ms : List (Nat × Nat)) (idx : Nat) (results : List Item)
      (sumAll : Nat) (allRolls : List Nat) (idx2 : Nat),
      get_items_aux fs g ms idx = .ok (results, sumAll, allRolls, idx2) →
      ∃ rl : List (List Nat),
        rl.length = ms.length ∧
        results = (ms.zip rl).map
          (fun x => get_item_from_rolls fs x.2 x.2.sum (some x.1.2)) ∧
        sumAll = (rl.map List.sum).sum ∧
        allRolls = rl.flatten := by
  intro ms
  induction ms with
  | nil =>
    intro idx results sumAll allRolls idx2 h
    injection h with h
    simp only [Prod.mk.injEq] at h
    obtain ⟨h1, h2, h3, -⟩ := h
    exact ⟨[], by simp, by simp [← h1], by simp [← h2], by simp [← h3]⟩
  | cons m rest ih =>
    intro idx results sumAll allRolls idx2 h
    obtain ⟨nd, ns⟩ := m
    unfold get_items_aux at h
    cases hrd : roll_dice nd ns g idx <;> rw [hrd] at h
    · exact absurd h (by simp)
    next y =>
      obtain ⟨sum_rolls, rolls⟩ := y
      cases haux : get_items_aux fs g rest (idx + nd) <;> rw [haux] at h
      · exact absurd h (by simp)
      next out2 =>
        obtain ⟨items2, sumAll2, allRolls2, idxB⟩ := out2
        obtain ⟨rl, hlen, hitems, hsum, hflat⟩ :=
          ih (idx + nd) items2 sumAll2 allRolls2 idxB haux
        have hsr : sum_rolls = rolls.sum := roll_dice_ok_sum hrd
        injection h with h
        simp only [Prod.mk.injEq] at h
        obtain ⟨h1, h2, h3, -⟩ := h
        refine ⟨rolls :: rl, by simp [hlen], ?_, ?_, ?_⟩
        · rw [← h1, hitems, List.zip_cons_cons, List.map_cons, hsr]
        · rw [← h2, hsum, List.map_cons, List.sum_cons, hsr]
        · rw [← h3, hflat, List.flatten_cons]

/-- The full shape of a successful `get_items`: the group items in match
order, then the overall-total summary exactly when more than one pair
matched, built from the flattened rolls and the grand total. -/
theorem get_items_ok_struct (qs : List Char) (fs : String → Bool) (g : Nat → Nat)
    (items : List Item) (h : get_items qs fs g = .ok items) :
    ∃ rl : List (List Nat),
      rl.length = (single_dice_findall qs).length ∧
      items = ((single_dice_findall qs).zip rl).map
          (fun x => get_item_from_rolls fs x.2 x.2.sum (some x.1.2)) ++
        (if 1 < (single_dice_findall qs).length then
          [get_item_from_rolls fs rl.flatten (rl.map List.sum).sum none]
        else []) := by
  unfold get_items at h
  cases haux : get_items_aux fs g (single_dice_findall qs) 0 <;> rw [haux] at h
  · exact absurd h (by simp)
  next out =>
    obtain ⟨results, sumAll, allRolls, idx2⟩ := out
    obtain ⟨rl, hlen, hitems, hsum, hflat⟩ :=
      get_items_aux_ok (single_dice_findall qs) 0 results sumAll allRolls idx2 haux
    injection h with h
    refine ⟨rl, hlen, ?_⟩
    rw [← h]
    by_cases hgt : 1 < (single_dice_findall qs).length
    · rw [if_pos hgt, if_pos hgt, hitems, hsum, hflat]
    · rw [if_neg hgt, if_neg hgt, hitems]
      exact (List.append_nil _).symm

/-- A concrete filesystem oracle on which no icon file exists. -/
def fs0 : String → Bool := fun _ => false

/-- A concrete random stream that always draws 0 (so every die shows 1). -/
def g0 : Nat → Nat := fun _ => 0

theorem item_total_inv (fs : String → Bool) (rolls : List Nat) (ns : Option Nat) :
    ItemTotalInv (get_item_from_rolls fs rolls rolls.sum ns) := by
  refine ⟨rolls, rfl, ?_⟩
  cases ns with
  | none => exact Or.inl rfl
  | some n =>
    by_cases hn : n = 0
    · exact Or.inl (by simp [get_item_from_rolls, optTruthy, hn])
    · exact Or.inr ⟨rolls.length, n,
        by simp [get_item_from_rolls, optTruthy, hn, pyStrOptNat]⟩

theorem get_items_total_inv (qs : List Char) (fs : String → Bool) (g : Nat → Nat)
    (items : List Item) (h : get_items qs fs g = .ok items) :
    ∀ it ∈ items, ItemTotalInv it := by
  obtain ⟨rl, hlen, hitems⟩ := get_items_ok_struct qs fs g items h
  intro it hit
  rw [hitems] at hit
  rcases List.mem_append.mp hit with hmem | hmem
  · obtain ⟨x, hx, rfl⟩ := List.mem_map.mp hmem
    exact item_total_inv fs x.2 (some x.1.2)
  · by_cases hgt : 1 < (single_dice_findall qs).length
    · rw [if_pos hgt, List.mem_singleton] at hmem
      subst hmem
      have hs : (rl.map List.sum).sum = rl.flatten.sum := (List.sum_flatten).symm
      rw [hs]
      exact item_total_inv fs rl.flatten none
    · rw [if_neg hgt] at hmem
      exact absurd hmem (List.not_mem_nil it)

/-- C1: for every query, every result entry produced (group entries and the
overall-total entry alike) displays after `Total:` exactly the sum of the
roll outcomes listed in its subtext. -/
theorem handleQuery_eq (q : List Char) (fs : String → Bool) (g : Nat → Nat) :
    handleQuery q fs g =
      if multiple_dice_fullmatch (pyStrip q) then
        match get_items (pyStrip q) fs g with
        | Except.ok items => ⟨some items, [], []⟩
        | Except.error e => ⟨none, [e], [wrongFormatMsg]⟩
      else ⟨none, [], []⟩ := rfl

theorem handleQuery_item_total_invariant (q : List Char) (fs : String → Bool)
    (g : Nat → Nat) (items : List Item)
    (h : (handleQuery q fs g).items = some items) :
    ∀ it ∈ items, ItemTotalInv it := by
  rw [handleQuery_eq] at h
  cases hv : multiple_dice_fullmatch (pyStrip q) <;> rw [hv] at h
  · exact absurd h (by simp)
  · simp only [if_pos] at h
    cases hgi : get_items (pyStrip q) fs g <;> rw [hgi] at h
    · exact absurd h (by simp)
    next its =>
      have h3 : its = items := by simpa using h
      subst h3
      exact get_items_total_inv (pyStrip q) fs g its hgi

theorem handleQuery_item_total_invariant_witness :
    ItemTotalInv (get_item_from_rolls fs0 [1, 1, 1, 1, 1] 5 none) :=
  handleQuery_item_total_invariant ("2d6 3d8").data fs0 g0
    [get_item_from_rolls fs0 [1, 1] 2 (some 6),
     get_item_from_rolls fs0 [1, 1, 1] 3 (some 8),
     get_item_from_rolls fs0 [1, 1, 1, 1, 1] 5 none]
    rfl (get_item_from_rolls fs0 [1, 1, 1, 1, 1] 5 none) (by decide)

/-- C2: for every `count ≥ 0` and `sides ≥ 1`, `roll_dice` succeeds with a
pair `(total, outcomes)`: exactly `count` outcomes, each in `[1, sides]`,
`total` their exact sum, and the list in generation order (the i-th outcome
comes from the i-th raw draw consumed). -/
theorem roll_dice_spec (count sides : Nat) (g : Nat → Nat) (start : Nat)
    (h : 1 ≤ sides) :
    ∃ rolls : List Nat,
      roll_dice count sides g start = .ok (rolls.sum, rolls) ∧
      rolls.length = count ∧
      (∀ r ∈ rolls, 1 ≤ r ∧ r ≤ sides) ∧
      (∀ i, i < count → rolls[i]? = some (1 + g (start + i) % sides)) := by
  refine ⟨(List.range count).map (fun i => 1 + g (start + i) % sides), ?_, ?_, ?_, ?_⟩
  · unfold roll_dice
    rw [roll_list_ok h g count start]
  · simp
  · intro r hr
    simp only [List.mem_map, List.mem_range] at hr
    obtain ⟨i, -, rfl⟩ := hr
    have := Nat.mod_lt (g (start + i)) (show 0 < sides by omega)
    omega
  · intro i hi
    rw [List.getElem?_map, List.getElem?_range hi]
    rfl

theorem roll_dice_spec_witness :
    ∃ rolls : List Nat,
      roll_dice 2 6 (fun i => i) 0 = .ok (rolls.sum, rolls) ∧
      rolls.length = 2 ∧
      (∀ r ∈ rolls, 1 ≤ r ∧ r ≤ 6) ∧
      (∀ i, i < 2 → rolls[i]? = some (1 + (0 + i) % 6)) :=
  roll_dice_spec 2 6 (fun i => i) 0 (by decide)

/-- C3: `get_items` yields one group entry per matched token in match order,
plus exactly one overall-total entry if and only if more than one token
matched; the summary's rolls are the concatenation of the group rolls in
match order and its total is the sum of the group totals. -/
theorem get_items_structure (qs : List Char) (fs : String → Bool) (g : Nat → Nat)
    (items : List Item) (h : get_items qs fs g = .ok items) :
    ∃ rl : List (List Nat),
      rl.length = (single_dice_findall qs).length ∧
      items = ((single_dice_findall qs).zip rl).map
          (fun x => get_item_from_rolls fs x.2 x.2.sum (some x.1.2)) ++
        (if 1 < (single_dice_findall qs).length then
          [get_item_from_rolls fs rl.flatten (rl.map List.sum).sum none]
        else []) :=
  get_items_ok_struct qs fs g items h

theorem get_items_structure_witness :
    ∃ rl : List (List Nat),
      rl.length = (single_dice_findall ("2d6 3d8").data).length ∧
      [get_item_from_rolls fs0 [1, 1] 2 (some 6),
       get_item_from_rolls fs0 [1, 1, 1] 3 (some 8),
       get_item_from_rolls fs0 [1, 1, 1, 1, 1] 5 none] =
        ((single_dice_findall ("2d6 3d8").data).zip rl).map
          (fun x => get_item_from_rolls fs0 x.2 x.2.sum (some x.1.2)) ++
        (if 1 < (single_dice_findall ("2d6 3d8").data).length then
          [get_item_from_rolls fs0 rl.flatten (rl.map List.sum).sum none]
        else []) :=
  get_items_structure ("2d6 3d8").data fs0 g0
    [get_item_from_rolls fs0 [1, 1] 2 (some 6),
     get_item_from_rolls fs0 [1, 1, 1] 3 (some 8),
     get_item_from_rolls fs0 [1, 1, 1, 1, 1] 5 none] rfl

/-- C9: a matched token with count 0 is not an error: `roll_dice(0, sides)`
returns total 0 with no outcomes and no exception, and `get_items` turns it
into one ordinary group entry with total 0 and an empty rolls listing
(input `0d6`). -/
theorem zero_count_roll_ok (sides : Nat) (g : Nat → Nat) (start : Nat)
    (fs : String → Bool) (_h : 1 ≤ sides) :
    roll_dice 0 sides g start = .ok (0, []) ∧
    get_items ("0d6").data fs g = .ok [get_item_from_rolls fs [] 0 (some 6)] ∧
    (get_item_from_rolls fs [] 0 (some 6)).text = "Rolled 0d6 - Total: 0" ∧
    (get_item_from_rolls fs [] 0 (some 6)).subtext = "Rolls: " :=
  ⟨rfl, rfl, rfl, rfl⟩

theorem zero_count_roll_ok_witness :
    roll_dice 0 6 g0 0 = .ok (0, []) ∧
    get_items ("0d6").data fs0 g0 = .ok [get_item_from_rolls fs0 [] 0 (some 6)] ∧
    (get_item_from_rolls fs0 [] 0 (some 6)).text = "Rolled 0d6 - Total: 0" ∧
    (get_item_from_rolls fs0 [] 0 (some 6)).subtext = "Rolls: " :=
  zero_count_roll_ok 6 g0 0 fs0 (by decide)

/-- C4: when the trimmed query text fails full-string validation,
`handleQuery` returns no items and makes no diagnostic call, and neither the
random stream nor the filesystem is consulted (so rolling is never invoked):
the observable result is independent of both. -/
theorem handleQuery_nonmatching_query (q : List Char) (fs : String → Bool)
    (g : Nat → Nat) (h : multiple_dice_fullmatch (pyStrip q) = false) :
    handleQuery q fs g = ⟨none, [], []⟩ ∧
    (∀ (fs2 : String → Bool) (g2 : Nat → Nat),
      handleQuery q fs2 g2 = handleQuery q fs g) := by
  constructor
  · rw [handleQuery_eq, h]
    simp
  · intro fs2 g2
    rw [handleQuery_eq, handleQuery_eq, h]
    simp

theorem handleQuery_nonmatching_query_witness :
    handleQuery ("hello").data fs0 g0 = ⟨none, [], []⟩ ∧
    (∀ (fs2 : String → Bool) (g2 : Nat → Nat),
      handleQuery ("hello").data fs2 g2 = handleQuery ("hello").data fs0 g0) :=
  handleQuery_nonmatching_query ("hello").data fs0 g0 (by decide)

/-- C5: when validation succeeds but extraction or rolling raises, the
exception never escapes: `handleQuery` makes exactly two diagnostic calls,
one passing the raised error and one passing the fixed notice, and returns
no items. -/
theorem handleQuery_exception_reporting (q : List Char) (fs : String → Bool)
    (g : Nat → Nat) (e : String)
    (h1 : multiple_dice_fullmatch (pyStrip q) = true)
    (h2 : get_items (pyStrip q) fs g = .error e) :
    handleQuery q fs g = ⟨none, [e], [wrongFormatMsg]⟩ := by
  rw [handleQuery_eq, h1, h2]
  simp

theorem handleQuery_exception_reporting_witness :
    handleQuery ("1d0").data fs0 g0 =
      ⟨none, ["empty range for randrange() (1, 1, 0)"],
        ["Something went wrong. Make sure you're using the correct format."]⟩ :=
  handleQuery_exception_reporting ("1d0").data fs0 g0
    ("empty range for randrange() (1, 1, 0)") (by decide) rfl

theorem string_append_assoc (a b c : String) : a ++ b ++ c = a ++ (b ++ c) := by
  cases a with
  | mk da =>
    cases b with
    | mk db =>
      cases c with
      | mk dc => exact congrArg String.mk (List.append_assoc da db dc)

/-- C8 (as stated by the spec): `get_icon_path` resolves a present side
count `n` to `d{n}.svg` inside the icons directory exactly when that file
exists, falls back to `d20.svg` when it does not, and for an absent side
count (the summary entry) answers `dice.svg` whatever the filesystem says. -/
theorem get_icon_path_spec :
    (∀ (fs : String → Bool) (n : Nat),
      (fs (icons_path ++ "/d" ++ toString n ++ ".svg") = true →
        get_icon_path fs (some n) = icons_path ++ "/d" ++ toString n ++ ".svg") ∧
      (fs (icons_path ++ "/d" ++ toString n ++ ".svg") = false →
        get_icon_path fs (some n) = icons_path ++ "/d20.svg")) ∧
    (∀ fs : String → Bool, get_icon_path fs none = icons_path ++ "/dice.svg") := by
  have habs : ∀ t : String, icons_path ++ "/" ++ ("d" ++ t) ++ ".svg" =
      icons_path ++ "/d" ++ t ++ ".svg" := by
    intro t
    rw [← string_append_assoc (icons_path ++ "/") ("d") t]
    rfl
  refine ⟨fun fs n => ⟨?_, ?_⟩, fun fs => rfl⟩
  · intro h
    unfold get_icon_path
    simp only [pyStrOptNat, h, if_true]
    simp only [reduceCtorEq, if_false]
    exact habs (toString n)
  · intro h
    unfold get_icon_path
    simp only [pyStrOptNat, h, if_false]
    simp only [reduceCtorEq, if_false]
    rfl

theorem get_icon_path_spec_witness :
    get_icon_path (fun _ => true) (some 6) =
      icons_path ++ "/d" ++ toString 6 ++ ".svg" ∧
    get_icon_path fs0 (some 6) = icons_path ++ "/d20.svg" ∧
    get_icon_path fs0 none = icons_path ++ "/dice.svg" :=
  ⟨(get_icon_path_spec.1 (fun _ => true) 6).1 rfl,
   (get_icon_path_spec.1 fs0 6).2 rfl,
   get_icon_path_spec.2 fs0⟩

/-- C6 (amended): a group entry whose matched token has nonzero sides is
headlined `Rolled {count}d{sides} - Total: {total}` (with a plain hyphen, and
the count displayed as the number of rolls, which equals the token count),
the overall-total entry is headlined `Overall Total: {total}`, every entry
lists its rolls in roll order joined by `", "` after the prefix `Rolls: `,
and input `2d6` yields exactly one entry whose headline is
`Rolled 2d6 - Total: {T}` with `T` the sum of its two rolls, each in
`[1, 6]`.  A token with sides 0 (reachable only as `0d0`) instead reuses the
overall-total headline, because the code tests the truthiness of the sides
value rather than its presence — see the counterexample. -/
theorem get_item_headlines :
    (∀ (fs : String → Bool) (rolls : List Nat) (total n : Nat), n ≠ 0 →
      (get_item_from_rolls fs rolls total (some n)).text =
        "Rolled " ++ toString rolls.length ++ "d" ++ toString n
          ++ " - Total: " ++ toString total) ∧
    (∀ (fs : String → Bool) (rolls : List Nat) (total : Nat),
      (get_item_from_rolls fs rolls total none).text =
        "Overall Total: " ++ toString total) ∧
    (∀ (fs : String → Bool) (rolls : List Nat) (total : Nat) (ns : Option Nat),
      (get_item_from_rolls fs rolls total ns).subtext =
        "Rolls: " ++ joinComma rolls) ∧
    (∀ (fs : String → Bool) (g : Nat → Nat),
      ∃ r1 r2 : Nat, 1 ≤ r1 ∧ r1 ≤ 6 ∧ 1 ≤ r2 ∧ r2 ≤ 6 ∧
        get_items ("2d6").data fs g =
          .ok [get_item_from_rolls fs [r1, r2] (r1 + r2) (some 6)] ∧
        (get_item_from_rolls fs [r1, r2] (r1 + r2) (some 6)).text =
          "Rolled 2d6 - Total: " ++ toString (r1 + r2)) := by
  refine ⟨?_, fun fs rolls total => rfl, fun fs rolls total ns => rfl, ?_⟩
  · intro fs rolls total n hn
    unfold get_item_from_rolls
    simp only [optTruthy, pyStrOptNat, hn, decide_not, if_true]
    simp [hn]
  · intro fs g
    have h1 : (g 0) % 6 < 6 := Nat.mod_lt _ (by omega)
    have h2 : (g 1) % 6 < 6 := Nat.mod_lt _ (by omega)
    have hroll : roll_list 2 6 g 0 = .ok [1 + g 0 % 6, 1 + g 1 % 6] := by
      rw [roll_list_ok (by omega) g 2 0]
      rfl
    refine ⟨1 + g 0 % 6, 1 + g 1 % 6, by omega, by omega, by omega, by omega, ?_, ?_⟩
    · have hrd : roll_dice 2 6 g 0 =
          .ok (([1 + g 0 % 6, 1 + g 1 % 6] : List Nat).sum,
            [1 + g 0 % 6, 1 + g 1 % 6]) := by
        unfold roll_dice
        rw [hroll]
      have haux : get_items_aux fs g [(2, 6)] 0 =
          .ok ([get_item_from_rolls fs [1 + g 0 % 6, 1 + g 1 % 6]
              (([1 + g 0 % 6, 1 + g 1 % 6] : List Nat).sum) (some 6)],
            ([1 + g 0 % 6, 1 + g 1 % 6] : List Nat).sum + 0,
            [1 + g 0 % 6, 1 + g 1 % 6] ++ [], 0 + 2) := by
        unfold get_items_aux
        rw [hrd]
        rfl
      show get_items ("2d6").data fs g = _
      unfold get_items
      rw [show single_dice_findall ("2d6").data = [(2, 6)] from rfl, haux]
      rfl
    · show "Rolled " ++ toString (List.length [1 + g 0 % 6, 1 + g 1 % 6])
          ++ "d" ++ pyStrOptNat (some 6) ++ " - Total: "
          ++ toString (1 + g 0 % 6 + (1 + g 1 % 6)) = _
      rw [show List.length [1 + g 0 % 6, 1 + g 1 % 6] = 2 from rfl]
      rfl

theorem get_item_headlines_witness :
    (get_item_from_rolls fs0 [1, 2] 3 (some 6)).text =
      "Rolled " ++ toString ([1, 2] : List Nat).length ++ "d" ++ toString 6
        ++ " - Total: " ++ toString 3 ∧
    (get_item_from_rolls fs0 [1, 1, 1, 1, 1] 5 none).text =
      "Overall Total: " ++ toString 5 ∧
    (∃ r1 r2 : Nat, 1 ≤ r1 ∧ r1 ≤ 6 ∧ 1 ≤ r2 ∧ r2 ≤ 6 ∧
      get_items ("2d6").data fs0 g0 =
        .ok [get_item_from_rolls fs0 [r1, r2] (r1 + r2) (some 6)] ∧
      (get_item_from_rolls fs0 [r1, r2] (r1 + r2) (some 6)).text =
        "Rolled 2d6 - Total: " ++ toString (r1 + r2)) :=
  ⟨get_item_headlines.1 fs0 [1, 2] 3 6 (by decide),
   get_item_headlines.2.1 fs0 [1, 1, 1, 1, 1] 5,
   get_item_headlines.2.2.2 fs0 g0⟩

/-- Counterexample to C6 as stated: on input `0d0` the single matched token
`(0, 0)` produces a group entry (the only entry), yet its headline is
`Overall Total: 0` and not `Rolled 0d0 - Total: 0`, because the headline
tests the truthiness of the sides value and `0` is falsy in Python. -/
theorem group_headline_zero_sides_cex :
    single_dice_findall ("0d0").data = [(0, 0)] ∧
    get_items ("0d0").data fs0 g0 = .ok [get_item_from_rolls fs0 [] 0 (some 0)] ∧
    (get_item_from_rolls fs0 [] 0 (some 0)).text = "Overall Total: 0" ∧
    (get_item_from_rolls fs0 [] 0 (some 0)).text ≠ "Rolled 0d0 - Total: 0" :=
  ⟨rfl, rfl, rfl, by decide⟩

/-! ### The specification-side characterisation of the two patterns -/

/-- Spec side: a non-empty run of decimal digits (`<digits>`). -/
def isDigitRun (l : List Char) : Prop := l ≠ [] ∧ ∀ c ∈ l, c.isDigit = true

/-- Spec side: a non-empty run of separator characters, i.e. non-digits. -/
def isSepRun (l : List Char) : Prop := l ≠ [] ∧ ∀ c ∈ l, c.isDigit = false

/-- Spec side: one token `<digits>d<digits>`, the `d` case-insensitive. -/
def isDiceToken (l : List Char) : Prop :=
  ∃ d1 c d2, isDigitRun d1 ∧ isD c = true ∧ isDigitRun d2 ∧ l = d1 ++ c :: d2

/-- Spec side, following the claim's words: the strings composed of one or
more repetitions of the token `<digits>d<digits>`, each followed by a run of
non-digit separator characters or by the end of the string. -/
inductive DiceLang : List Char → Prop where
  | lastTok {t : List Char} : isDiceToken t → DiceLang t
  | lastSep {t sep : List Char} : isDiceToken t → isSepRun sep →
      DiceLang (t ++ sep)
  | more {t sep rest : List Char} : isDiceToken t → isSepRun sep →
      DiceLang rest → DiceLang (t ++ sep ++ rest)

/-- Spec side: the pair `p` is read off one occurrence of the token pattern
somewhere in `s` (no anchoring, no coverage of the rest). -/
def TokenOccurrence (s : List Char) (p : Nat × Nat) : Prop :=
  ∃ pre d1 c d2 post, isDigitRun d1 ∧ isD c = true ∧ isDigitRun d2 ∧
    s = pre ++ d1 ++ c :: d2 ++ post ∧ p = (digitsToNat d1, digitsToNat d2)

theorem isD_not_digit {c : Char} (h : isD c = true) : c.isDigit = false := by
  have h2 : c = 'd' ∨ c = 'D' := by
    rcases Bool.or_eq_true_iff.mp h with h3 | h3
    · exact Or.inl (by exact beq_iff_eq.mp h3)
    · exact Or.inr (by exact beq_iff_eq.mp h3)
  rcases h2 with rfl | rfl <;> decide

theorem isSepRun_sat {sep : List Char} (h : isSepRun sep) :
    ∀ c ∈ sep, isSep c = true := by
  intro c hc
  have := h.2 c hc
  simp [isSep, this]

/-- Every member of the language decomposes as one leading token followed by
an arbitrary remainder. -/
theorem diceLang_shape {s : List Char} (h : DiceLang s) :
    ∃ d1 c d2 post, isDigitRun d1 ∧ isD c = true ∧ isDigitRun d2 ∧
      s = d1 ++ c :: d2 ++ post := by
  cases h with
  | @lastTok t ht =>
    obtain ⟨d1, c, d2, h1, hc, h2, rfl⟩ := ht
    exact ⟨d1, c, d2, [], h1, hc, h2, by simp⟩
  | @lastSep t sep ht hsep =>
    obtain ⟨d1, c, d2, h1, hc, h2, rfl⟩ := ht
    exact ⟨d1, c, d2, sep, h1, hc, h2, by simp⟩
  | @more t sep rest ht hsep hrest =>
    obtain ⟨d1, c, d2, h1, hc, h2, rfl⟩ := ht
    exact ⟨d1, c, d2, sep ++ rest, h1, hc, h2, by simp⟩

/-- Every member of the language starts with a digit. -/
theorem diceLang_head {s : List Char} (h : DiceLang s) :
    ∃ c t, s = c :: t ∧ c.isDigit = true := by
  obtain ⟨d1, c, d2, post, h1, hc, h2, rfl⟩ := diceLang_shape h
  obtain ⟨hd1, tl1, rfl⟩ := List.exists_cons_of_ne_nil h1.1
  exact ⟨hd1, tl1 ++ c :: d2 ++ post, by simp, h1.2 hd1 (by simp)⟩

theorem takeWhile_nil_head {α : Type} {p : α → Bool} {l : List α}
    (h : l.takeWhile p = []) : l.dropWhile p = l := by
  cases l with
  | nil => rfl
  | cons a t =>
    cases hpa : p a
    · exact dropWhile_cons_of_neg t hpa
    · rw [show (a :: t).takeWhile p = a :: t.takeWhile p from by
        simp [List.takeWhile, hpa]] at h
      exact absurd h (by simp)

/-- One iteration of the full matcher across a final token: the token
followed by non-digits up to the end of the string (possibly none, the `$`
case) is accepted. -/
theorem fullmatchAux_last (fuel : Nat) (d1 d2 sep : List Char) (c : Char)
    (h1 : isDigitRun d1) (hc : isD c = true) (h2 : isDigitRun d2)
    (hsep : ∀ a ∈ sep, a.isDigit = false) :
    fullmatchAux (fuel + 1) (d1 ++ (c :: (d2 ++ sep))) = true := by
  obtain ⟨a, as, rfl⟩ := List.exists_cons_of_ne_nil h1.1
  obtain ⟨b, bs, rfl⟩ := List.exists_cons_of_ne_nil h2.1
  have hcd : c.isDigit = false := isD_not_digit hc
  have hsep2 : ∀ a ∈ sep, isSep a = true := by
    intro a ha
    simp [isSep, hsep a ha]
  have ht : sep.takeWhile Char.isDigit = [] := by
    cases sep with
    | nil => rfl
    | cons x xs => exact takeWhile_cons_of_neg xs (hsep x (by simp))
  have e1 : ((a :: as) ++ (c :: ((b :: bs) ++ sep))).takeWhile Char.isDigit
      = a :: as := by
    rw [takeWhile_append_of_all _ h1.2, takeWhile_cons_of_neg _ hcd,
      List.append_nil]
  have e2 : ((a :: as) ++ (c :: ((b :: bs) ++ sep))).dropWhile Char.isDigit
      = c :: ((b :: bs) ++ sep) := by
    rw [dropWhile_append_of_all _ h1.2, dropWhile_cons_of_neg _ hcd]
  have e3 : ((b :: bs) ++ sep).takeWhile Char.isDigit = b :: bs := by
    rw [takeWhile_append_of_all _ h2.2, ht, List.append_nil]
  have e4 : ((b :: bs) ++ sep).dropWhile Char.isDigit = sep := by
    rw [dropWhile_append_of_all _ h2.2]
    exact takeWhile_nil_head ht
  have e5 : sep.dropWhile isSep = [] := dropWhile_nil_of_all hsep2
  unfold fullmatchAux
  rw [e1, e2]
  simp only [e3, e4, e5, hc, if_true]

/-- One iteration of the full matcher across a non-final token: the token,
a non-empty separator run, then a remainder starting with a digit; the
matcher proceeds on the remainder with one unit of fuel spent. -/
theorem fullmatchAux_more (fuel : Nat) (d1 d2 sep rest : List Char) (c : Char)
    (h1 : isDigitRun d1) (hc : isD c = true) (h2 : isDigitRun d2)
    (hsep : isSepRun sep)
    (hrest : ∃ rh rt, rest = rh :: rt ∧ rh.isDigit = true) :
    fullmatchAux (fuel + 1) (d1 ++ (c :: (d2 ++ (sep ++ rest)))) =
      fullmatchAux fuel rest := by
  obtain ⟨a, as, rfl⟩ := List.exists_cons_of_ne_nil h1.1
  obtain ⟨b, bs, rfl⟩ := List.exists_cons_of_ne_nil h2.1
  obtain ⟨sx, sxs, rfl⟩ := List.exists_cons_of_ne_nil hsep.1
  obtain ⟨rh, rt, rfl, hrh⟩ := hrest
  have hcd : c.isDigit = false := isD_not_digit hc
  have hsep2 : ∀ a ∈ sx :: sxs, isSep a = true := isSepRun_sat hsep
  have hrsep : isSep rh = false := by simp [isSep, hrh]
  have ht : ((sx :: sxs) ++ (rh :: rt)).takeWhile Char.isDigit = [] := by
    show ((sx :: sxs) ++ (rh :: rt)).takeWhile Char.isDigit = []
    rw [show (sx :: sxs) ++ (rh :: rt) = sx :: (sxs ++ (rh :: rt)) from rfl]
    exact takeWhile_cons_of_neg _ (hsep.2 sx (by simp))
  have e1 : ((a :: as) ++ (c :: ((b :: bs) ++ ((sx :: sxs) ++ (rh :: rt))))).takeWhile
      Char.isDigit = a :: as := by
    rw [takeWhile_append_of_all _ h1.2, takeWhile_cons_of_neg _ hcd,
      List.append_nil]
  have e2 : ((a :: as) ++ (c :: ((b :: bs) ++ ((sx :: sxs) ++ (rh :: rt))))).dropWhile
      Char.isDigit = c :: ((b :: bs) ++ ((sx :: sxs) ++ (rh :: rt))) := by
    rw [dropWhile_append_of_all _ h1.2, dropWhile_cons_of_neg _ hcd]
  have e3 : ((b :: bs) ++ ((sx :: sxs) ++ (rh :: rt))).takeWhile Char.isDigit
      = b :: bs := by
    rw [takeWhile_append_of_all _ h2.2, ht, List.append_nil]
  have e4 : ((b :: bs) ++ ((sx :: sxs) ++ (rh :: rt))).dropWhile Char.isDigit
      = (sx :: sxs) ++ (rh :: rt) := by
    rw [dropWhile_append_of_all _ h2.2]
    exact takeWhile_nil_head ht
  have e5 : ((sx :: sxs) ++ (rh :: rt)).dropWhile isSep = rh :: rt := by
    rw [dropWhile_append_of_all _ hsep2, dropWhile_cons_of_neg _ hrsep]
  have e6 : ((sx :: sxs) ++ (rh :: rt)).takeWhile isSep = sx :: sxs := by
    rw [takeWhile_append_of_all _ hsep2, takeWhile_cons_of_neg _ hrsep,
      List.append_nil]
  conv_lhs => unfold fullmatchAux
  rw [e1, e2]
  simp only [e3, e4, e5, e6, hc, if_true]

/-- Completeness of the matcher: every string of the language is accepted
whenever the fuel is at least the input length. -/
theorem fullmatchAux_of_diceLang {s : List Char} (h : DiceLang s) :
    ∀ fuel : Nat, s.length ≤ fuel → fullmatchAux fuel s = true := by
  induction h with
  | @lastTok t ht =>
    intro fuel hlen
    obtain ⟨d1, c, d2, h1, hc, h2, rfl⟩ := ht
    cases fuel with
    | zero =>
      exfalso
      simp only [List.length_append, List.length_cons] at hlen
      omega
    | succ f =>
      have hstep := fullmatchAux_last f d1 d2 [] c h1 hc h2 (by simp)
      rw [List.append_nil] at hstep
      exact hstep
  | @lastSep t sep ht hsep =>
    intro fuel hlen
    obtain ⟨d1, c, d2, h1, hc, h2, rfl⟩ := ht
    cases fuel with
    | zero =>
      exfalso
      simp only [List.length_append, List.length_cons] at hlen
      omega
    | succ f =>
      rw [show (d1 ++ c :: d2) ++ sep = d1 ++ (c :: (d2 ++ sep)) by simp]
      exact fullmatchAux_last f d1 d2 sep c h1 hc h2 hsep.2
  | @more t sep rest ht hsep hrest ih =>
    intro fuel hlen
    obtain ⟨d1, c, d2, h1, hc, h2, rfl⟩ := ht
    cases fuel with
    | zero =>
      exfalso
      simp only [List.length_append, List.length_cons] at hlen
      omega
    | succ f =>
      rw [show (d1 ++ c :: d2) ++ sep ++ rest = d1 ++ (c :: (d2 ++ (sep ++ rest)))
        by simp]
      have hhead : ∃ rh rt, rest = rh :: rt ∧ rh.isDigit = true := by
        obtain ⟨rh, rt, heq, hdig⟩ := diceLang_head hrest
        exact ⟨rh, rt, heq, hdig⟩
      rw [fullmatchAux_more f d1 d2 sep rest c h1 hc h2 hsep hhead]
      apply ih
      have hd1 : 1 ≤ d1.length := List.length_pos.mpr h1.1
      have hsep1 : 1 ≤ sep.length := List.length_pos.mpr hsep.1
      simp only [List.length_append, List.length_cons] at hlen
      omega

/-- Soundness of the matcher: whatever the fuel, acceptance implies
membership in the language. -/
theorem diceLang_of_fullmatchAux :
    ∀ (fuel : Nat) (s : List Char), fullmatchAux fuel s = true → DiceLang s := by
  intro fuel
  induction fuel with
  | zero =>
    intro s h
    exact absurd h (by simp [fullmatchAux])
  | succ f ih =>
    intro s h
    have hs0 : s.takeWhile Char.isDigit ++ s.dropWhile Char.isDigit = s :=
      List.takeWhile_append_dropWhile Char.isDigit s
    unfold fullmatchAux at h
    split at h
    next => exact absurd h (by simp)
    next => exact absurd h (by simp)
    next d1h d1t c t2 htake hdrop =>
      rw [htake, hdrop] at hs0
      have hall1 : ∀ a ∈ d1h :: d1t, a.isDigit = true := by
        rw [← htake]
        exact mem_takeWhile_sat Char.isDigit s
      split at h
      next hc =>
        split at h
        next => exact absurd h (by simp)
        next d2h d2t htake2 =>
          have hall2 : ∀ a ∈ d2h :: d2t, a.isDigit = true := by
            rw [← htake2]
            exact mem_takeWhile_sat Char.isDigit t2
          have ht2 : (d2h :: d2t) ++ t2.dropWhile Char.isDigit = t2 := by
            conv_rhs => rw [← List.takeWhile_append_dropWhile
              (p := Char.isDigit) (l := t2)]
            rw [htake2]
          have htok : isDiceToken ((d1h :: d1t) ++ c :: (d2h :: d2t)) :=
            ⟨d1h :: d1t, c, d2h :: d2t, ⟨by simp, hall1⟩, hc, ⟨by simp, hall2⟩, rfl⟩
          have ht3 : (t2.dropWhile Char.isDigit).takeWhile isSep ++
              (t2.dropWhile Char.isDigit).dropWhile isSep
                = t2.dropWhile Char.isDigit :=
            List.takeWhile_append_dropWhile isSep (t2.dropWhile Char.isDigit)
          have hsepall : ∀ a ∈ (t2.dropWhile Char.isDigit).takeWhile isSep,
              a.isDigit = false := by
            intro a ha
            have := mem_takeWhile_sat isSep _ a ha
            simpa [isSep] using this
          split at h
          next h4 =>
            rw [h4, List.append_nil] at ht3
            cases hsep : (t2.dropWhile Char.isDigit).takeWhile isSep with
            | nil =>
              rw [hsep] at ht3
              have ht2nil : t2 = d2h :: d2t := by rw [← ht2, ← ht3, List.append_nil]
              have hs : s = (d1h :: d1t) ++ c :: (d2h :: d2t) := by
                rw [← hs0, ht2nil]
              rw [hs]
              exact DiceLang.lastTok htok
            | cons e es =>
              have hseprun : isSepRun (e :: es) := by
                refine ⟨by simp, ?_⟩
                rw [← hsep]
                exact hsepall
              have hs : s = ((d1h :: d1t) ++ c :: (d2h :: d2t)) ++ (e :: es) := by
                rw [← hs0, ← ht2, ← ht3, hsep]
                simp
              rw [hs]
              exact DiceLang.lastSep htok hseprun
          next c4 t5 h4 =>
            split at h
            next => exact absurd h (by simp)
            next sh st htake3 =>
              have hrest : DiceLang (c4 :: t5) := ih _ h
              have hseprun : isSepRun (sh :: st) := by
                refine ⟨by simp, ?_⟩
                rw [← htake3]
                exact hsepall
              have hs : s = ((d1h :: d1t) ++ c :: (d2h :: d2t)) ++ (sh :: st)
                  ++ (c4 :: t5) := by
                rw [← hs0, ← ht2, ← ht3, htake3, h4]
                simp
              rw [hs]
              exact DiceLang.more htok hseprun hrest
      next => exact absurd h (by simp)

/-- The executable full matcher decides exactly the spec language. -/
theorem multiple_dice_fullmatch_iff_diceLang (s : List Char) :
    multiple_dice_fullmatch s = true ↔ DiceLang s := by
  constructor
  · exact diceLang_of_fullmatchAux s.length s
  · intro h
    exact fullmatchAux_of_diceLang h s.length (Nat.le_refl _)

/-! ### The literal pattern decides the same language -/

theorem matches_plus_cls_build {p : Char → Bool} :
    ∀ (l t : List Char), l ≠ [] → (∀ a ∈ l, p a = true) →
      Matches (.plus (.cls p)) (l ++ t) t := by
  intro l
  induction l with
  | nil => intro t h; exact absurd rfl h
  | cons a l2 ih =>
    intro t h hall
    cases l2 with
    | nil =>
      exact Matches.plus1 (Matches.cls (hall a (by simp)))
    | cons b l3 =>
      exact Matches.plusN (Matches.cls (hall a (by simp)))
        (ih t (by simp) (fun x hx => hall x (List.mem_cons_of_mem a hx)))

theorem matches_token_build {tok : List Char} (h : isDiceToken tok) :
    ∀ t : List Char, Matches single_dice_regex (tok ++ t) t := by
  obtain ⟨d1, c, d2, h1, hc, h2, rfl⟩ := h
  intro t
  rw [show (d1 ++ c :: d2) ++ t = d1 ++ (c :: (d2 ++ t)) by simp]
  exact Matches.seq (matches_plus_cls_build d1 _ h1.1 h1.2)
    (Matches.seq (Matches.cls hc) (matches_plus_cls_build d2 t h2.1 h2.2))

/-- Every string of the spec language is matched in full by the literal
pattern `(?:(\d+)d(\d+)(?:\D+|$))+`. -/
theorem matches_of_diceLang {s : List Char} (h : DiceLang s) :
    Matches multiple_dice_regex s [] := by
  induction h with
  | @lastTok t ht =>
    have := Matches.seq (matches_token_build ht [])
      (Matches.altR (b := .eos) (a := .plus (.cls isSep)) Matches.eos)
    rw [List.append_nil] at this
    exact Matches.plus1 this
  | @lastSep t sep ht hsep =>
    have hsepm : Matches (.plus (.cls isSep)) (sep ++ []) [] :=
      matches_plus_cls_build sep [] hsep.1 (isSepRun_sat hsep)
    rw [List.append_nil] at hsepm
    exact Matches.plus1 (Matches.seq (matches_token_build ht sep)
      (Matches.altL hsepm))
  | @more t sep rest ht hsep hrest ih =>
    have htokm : Matches single_dice_regex ((t ++ sep) ++ rest) (sep ++ rest) := by
      rw [show (t ++ sep) ++ rest = t ++ (sep ++ rest) by simp]
      exact matches_token_build ht (sep ++ rest)
    exact Matches.plusN
      (Matches.seq htokm
        (Matches.altL (matches_plus_cls_build sep rest hsep.1 (isSepRun_sat hsep))))
      ih

theorem matches_cls_inv {p : Char → Bool} {s t : List Char}
    (h : Matches (.cls p) s t) : ∃ c, p c = true ∧ s = c :: t := by
  cases h with
  | cls hc => exact ⟨_, hc, rfl⟩

theorem matches_eos_inv {s t : List Char} (h : Matches .eos s t) :
    s = [] ∧ t = [] := by
  cases h with
  | eos => exact ⟨rfl, rfl⟩

theorem matches_seq_inv {a b : Re} {s t : List Char}
    (h : Matches (.seq a b) s t) : ∃ u, Matches a s u ∧ Matches b u t := by
  cases h with
  | seq h1 h2 => exact ⟨_, h1, h2⟩

theorem matches_alt_inv {a b : Re} {s t : List Char}
    (h : Matches (.alt a b) s t) : Matches a s t ∨ Matches b s t := by
  cases h with
  | altL h1 => exact Or.inl h1
  | altR h1 => exact Or.inr h1

theorem matches_plus_cls_inv {r : Re} {s t : List Char} (h : Matches r s t) :
    ∀ p : Char → Bool, r = .plus (.cls p) →
      ∃ l, l ≠ [] ∧ (∀ a ∈ l, p a = true) ∧ s = l ++ t := by
  induction h with
  | cls hc => intro p heq; exact Re.noConfusion heq
  | eos => intro p heq; exact Re.noConfusion heq
  | seq h1 h2 ih1 ih2 => intro p heq; exact Re.noConfusion heq
  | altL h1 ih1 => intro p heq; exact Re.noConfusion heq
  | altR h1 ih1 => intro p heq; exact Re.noConfusion heq
  | plus1 h1 ih1 =>
    intro p heq
    injection heq with heq
    subst heq
    obtain ⟨c, hc, rfl⟩ := matches_cls_inv h1
    exact ⟨[c], by simp, by simpa using hc, rfl⟩
  | plusN h1 h2 ih1 ih2 =>
    intro p heq
    injection heq with heq
    subst heq
    obtain ⟨c, hc, rfl⟩ := matches_cls_inv h1
    obtain ⟨l2, hl2ne, hl2all, rfl⟩ := ih2 p rfl
    refine ⟨c :: l2, by simp, ?_, rfl⟩
    intro x hx
    rcases List.mem_cons.mp hx with rfl | hx2
    · exact hc
    · exact hl2all x hx2

theorem matches_token_inv {s t : List Char}
    (h : Matches single_dice_regex s t) :
    ∃ tok, isDiceToken tok ∧ s = tok ++ t := by
  obtain ⟨u1, hd1, hrest⟩ := matches_seq_inv h
  obtain ⟨u2, hdc, hd2⟩ := matches_seq_inv hrest
  obtain ⟨l1, hl1ne, hl1all, rfl⟩ := matches_plus_cls_inv hd1 Char.isDigit rfl
  obtain ⟨c, hc, rfl⟩ := matches_cls_inv hdc
  obtain ⟨l2, hl2ne, hl2all, rfl⟩ := matches_plus_cls_inv hd2 Char.isDigit rfl
  exact ⟨l1 ++ c :: l2, ⟨l1, c, l2, ⟨hl1ne, hl1all⟩, hc, ⟨hl2ne, hl2all⟩, rfl⟩,
    by simp⟩

/-- The group of `multiple_dice_regex`: one token then a separator run or
the end anchor. -/
theorem matches_group_inv {s t : List Char}
    (h : Matches (.seq single_dice_regex (.alt (.plus (.cls isSep)) .eos)) s t) :
    ∃ tok, isDiceToken tok ∧
      ((∃ sep, isSepRun sep ∧ s = tok ++ sep ++ t) ∨ (s = tok ++ t ∧ t = [])) := by
  obtain ⟨u, htok, halt⟩ := matches_seq_inv h
  obtain ⟨tok, htok2, rfl⟩ := matches_token_inv htok
  rcases matches_alt_inv halt with hsep | heos
  · obtain ⟨sep, hsepne, hsepall, rfl⟩ := matches_plus_cls_inv hsep isSep rfl
    refine ⟨tok, htok2, Or.inl ⟨sep, ⟨hsepne, ?_⟩, by simp⟩⟩
    intro a ha
    have := hsepall a ha
    simpa [isSep] using this
  · obtain ⟨rfl, rfl⟩ := matches_eos_inv heos
    exact ⟨tok, htok2, Or.inr ⟨rfl, rfl⟩⟩

/-- Every full match of the literal pattern lies in the spec language. -/
theorem diceLang_of_matches_aux {r : Re} {s t : List Char}
    (h : Matches r s t) :
    r = .plus (.seq single_dice_regex (.alt (.plus (.cls isSep)) .eos)) →
    t = [] → DiceLang s := by
  induction h with
  | cls hc => intro heq; exact Re.noConfusion heq
  | eos => intro heq; exact Re.noConfusion heq
  | seq h1 h2 ih1 ih2 => intro heq; exact Re.noConfusion heq
  | altL h1 ih1 => intro heq; exact Re.noConfusion heq
  | altR h1 ih1 => intro heq; exact Re.noConfusion heq
  | plus1 h1 ih1 =>
    intro heq htnil
    injection heq with heq
    subst heq
    subst htnil
    obtain ⟨tok, htok, hshape⟩ := matches_group_inv h1
    rcases hshape with ⟨sep, hseprun, hs⟩ | ⟨hs, -⟩
    · rw [List.append_nil] at hs
      rw [hs]
      exact DiceLang.lastSep htok hseprun
    · rw [List.append_nil] at hs
      rw [hs]
      exact DiceLang.lastTok htok
  | plusN h1 h2 ih1 ih2 =>
    intro heq htnil
    injection heq with heq2
    subst htnil
    obtain ⟨tok, htok, hshape⟩ := matches_group_inv (heq2 ▸ h1)
    rcases hshape with ⟨sep, hseprun, hs⟩ | ⟨hs, rfl⟩
    · have hrest := ih2 (by rw [heq2]) rfl
      rw [hs]
      exact DiceLang.more htok hseprun hrest
    · rw [List.append_nil] at hs
      rw [hs]
      exact DiceLang.lastTok htok

/-- The literal source pattern, matched against the whole input, decides
exactly the spec language. -/
theorem matches_multiple_iff_diceLang (s : List Char) :
    Matches multiple_dice_regex s [] ↔ DiceLang s := by
  constructor
  · intro h
    exact diceLang_of_matches_aux h rfl rfl
  · exact matches_of_diceLang

/-- The executable full matcher agrees with the literal source pattern. -/
theorem multiple_dice_fullmatch_iff_matches (s : List Char) :
    multiple_dice_fullmatch s = true ↔ Matches multiple_dice_regex s [] := by
  rw [multiple_dice_fullmatch_iff_diceLang, matches_multiple_iff_diceLang]

/-- Soundness of the scan: every pair it returns is read off an actual
occurrence of the token pattern in the input. -/
theorem findallAux_sound :
    ∀ (fuel : Nat) (s : List Char) (p : Nat × Nat),
      p ∈ findallAux fuel s → TokenOccurrence s p := by
  intro fuel
  induction fuel with
  | zero =>
    intro s p hp
    cases s with
    | nil => exact absurd hp (by simp [findallAux])
    | cons c cs => exact absurd hp (by simp [findallAux])
  | succ f ih =>
    intro s p hp
    cases s with
    | nil => exact absurd hp (by simp [findallAux])
    | cons a cs =>
      cases htm : tryMatch (a :: cs) with
      | none =>
        have hp2 : p ∈ findallAux f cs := by
          simpa [findallAux, htm] using hp
        obtain ⟨pre, d1, c, d2, post, h1, hc, h2, hs, hp3⟩ := ih cs p hp2
        exact ⟨a :: pre, d1, c, d2, post, h1, hc, h2, by simp [hs], hp3⟩
      | some x =>
        have hp2 : p = (x.1, x.2.1) ∨ p ∈ findallAux f x.2.2 := by
          simpa [findallAux, htm] using hp
        obtain ⟨d1, c, d2, hne1, hall1, hc, hne2, hall2, hs, he1, he2⟩ :=
          tryMatch_some htm
        rcases hp2 with rfl | hp3
        · refine ⟨[], d1, c, d2, x.2.2, ⟨hne1, hall1⟩, hc, ⟨hne2, hall2⟩,
            by simp [hs], ?_⟩
          rw [he1, he2]
        · obtain ⟨pre2, e1, c2, e2, post2, k1, kc, k2, hs2, hp4⟩ := ih x.2.2 p hp3
          refine ⟨d1 ++ c :: d2 ++ pre2, e1, c2, e2, post2, k1, kc, k2, ?_, hp4⟩
          rw [hs, hs2]
          simp

/-- A successful attempt exists wherever the input begins with a token. -/
theorem tryMatch_of_token {d1 : List Char} {c : Char} {d2 post : List Char}
    (h1 : isDigitRun d1) (hc : isD c = true) (h2 : isDigitRun d2) :
    ∃ x, tryMatch (d1 ++ (c :: (d2 ++ post))) = some x := by
  obtain ⟨a, as, rfl⟩ := List.exists_cons_of_ne_nil h1.1
  obtain ⟨b, bs, rfl⟩ := List.exists_cons_of_ne_nil h2.1
  have hcd : c.isDigit = false := isD_not_digit hc
  have e1 : ((a :: as) ++ (c :: ((b :: bs) ++ post))).takeWhile Char.isDigit
      = a :: as := by
    rw [takeWhile_append_of_all _ h1.2, takeWhile_cons_of_neg _ hcd,
      List.append_nil]
  have e2 : ((a :: as) ++ (c :: ((b :: bs) ++ post))).dropWhile Char.isDigit
      = c :: ((b :: bs) ++ post) := by
    rw [dropWhile_append_of_all _ h1.2, dropWhile_cons_of_neg _ hcd]
  have e3 : ((b :: bs) ++ post).takeWhile Char.isDigit
      = b :: (bs ++ post.takeWhile Char.isDigit) := by
    rw [takeWhile_append_of_all _ h2.2]
    rfl
  unfold tryMatch
  rw [e1, e2]
  simp only [e3, hc, if_true]
  exact ⟨_, rfl⟩

/-- Wherever a token occurs in the input, the scan returns at least one
pair, whether or not the rest of the input looks like dice notation. -/
theorem findallAux_token_nonempty :
    ∀ (pre : List Char) (fuel : Nat) (s d1 : List Char) (c : Char)
      (d2 post : List Char),
      isDigitRun d1 → isD c = true → isDigitRun d2 →
      s = pre ++ (d1 ++ (c :: (d2 ++ post))) → s.length ≤ fuel →
      findallAux fuel s ≠ [] := by
  intro pre
  induction pre with
  | nil =>
    intro fuel s d1 c d2 post h1 hc h2 hs hlen
    obtain ⟨a, as, rfl⟩ := List.exists_cons_of_ne_nil h1.1
    rw [List.nil_append] at hs
    subst hs
    cases fuel with
    | zero =>
      exact absurd hlen (by simp)
    | succ f =>
      rw [List.cons_append]
      obtain ⟨x, hx⟩ := @tryMatch_of_token (a :: as) c d2 post h1 hc h2
      have hx2 : tryMatch (a :: (as ++ (c :: (d2 ++ post)))) = some x := by
        rw [← List.cons_append]
        exact hx
      simp [findallAux, hx2]
  | cons q pre2 ih =>
    intro fuel s d1 c d2 post h1 hc h2 hs hlen
    subst hs
    cases fuel with
    | zero =>
      exact absurd hlen (by simp)
    | succ f =>
      rw [List.cons_append]
      cases htm : tryMatch (q :: (pre2 ++ (d1 ++ (c :: (d2 ++ post))))) with
      | some x =>
        simp [findallAux, htm]
      | none =>
        have hgoal : findallAux (f + 1) (q :: (pre2 ++ (d1 ++ (c :: (d2 ++ post)))))
            = findallAux f (pre2 ++ (d1 ++ (c :: (d2 ++ post)))) := by
          simp [findallAux, htm]
        rw [hgoal]
        apply ih f _ d1 c d2 post h1 hc h2 rfl
        simp only [List.length_append, List.length_cons] at hlen ⊢
        omega

/-- C7: full-string validation (the literal pattern
`(?:(\d+)d(\d+)(?:\D+|$))+` matched against the whole input, and the
executable matcher implementing it) accepts exactly the strings of one or
more `<digits>d<digits>` tokens (case-insensitive `d`), each followed by a
run of non-digit separator characters or the end of the string; extraction
is an independent non-anchored scan: every pair it returns is read off an
occurrence of the token pattern in the input, and it returns at least one
pair whenever a token occurs anywhere, with no requirement that the matches
cover the string. -/
theorem dice_pattern_characterisation :
    (∀ s : List Char, Matches multiple_dice_regex s [] ↔ DiceLang s) ∧
    (∀ s : List Char, multiple_dice_fullmatch s = true ↔ DiceLang s) ∧
    (∀ (s : List Char) (p : Nat × Nat),
      p ∈ single_dice_findall s → TokenOccurrence s p) ∧
    (∀ (s : List Char) (p : Nat × Nat),
      TokenOccurrence s p → single_dice_findall s ≠ []) := by
  refine ⟨matches_multiple_iff_diceLang, multiple_dice_fullmatch_iff_diceLang,
    fun s p hp => findallAux_sound s.length s p hp, ?_⟩
  intro s p hocc
  obtain ⟨pre, d1, c, d2, post, h1, hc, h2, hs, -⟩ := hocc
  exact findallAux_token_nonempty pre s.length s d1 c d2 post h1 hc h2
    (by rw [hs]; simp) (Nat.le_refl _)

theorem dice_pattern_characterisation_witness :
    TokenOccurrence ("x1d2x").data (1, 2) ∧
    single_dice_findall ("x1d2x").data ≠ [] ∧
    Matches multiple_dice_regex ("2d6").data [] ∧
    DiceLang ("2d6").data := by
  refine ⟨?_, ?_, ?_, ?_⟩
  · exact dice_pattern_characterisation.2.2.1 ("x1d2x").data (1, 2) (by decide)
  · exact dice_pattern_characterisation.2.2.2 ("x1d2x").data (1, 2)
      ⟨['x'], ['1'], 'd', ['2'], ['x'], ⟨by decide, by decide⟩, by decide,
        ⟨by decide, by decide⟩, by decide, by decide⟩
  · exact (dice_pattern_characterisation.1 ("2d6").data).mpr
      (DiceLang.lastTok ⟨['2'], 'd', ['6'], ⟨by decide, by decide⟩, by decide,
        ⟨by decide, by decide⟩, by decide⟩)
  · exact (dice_pattern_characterisation.2.1 ("2d6").data).mp (by decide)

/-- C10: every string accepted by the full-string validation pattern
contains at least one extractable token, so a validated query reaches
`get_items` with a non-empty match list and, absent an exception, at least
one entry is returned. -/
theorem validation_implies_extraction (q : List Char) (fs : String → Bool)
    (g : Nat → Nat) (h : multiple_dice_fullmatch (pyStrip q) = true) :
    single_dice_findall (pyStrip q) ≠ [] ∧
    ∀ items : List Item, (handleQuery q fs g).items = some items → items ≠ [] := by
  have hdl : DiceLang (pyStrip q) := diceLang_of_fullmatchAux _ _ h
  obtain ⟨d1, c, d2, post, h1, hc, h2, hs⟩ := diceLang_shape hdl
  have hne : single_dice_findall (pyStrip q) ≠ [] :=
    findallAux_token_nonempty [] (pyStrip q).length _ d1 c d2 post h1 hc h2
      (by rw [hs]; simp) (Nat.le_refl _)
  refine ⟨hne, ?_⟩
  intro items hitems
  rw [handleQuery_eq, h] at hitems
  simp only [if_pos] at hitems
  cases hgi : get_items (pyStrip q) fs g <;> rw [hgi] at hitems
  · exact absurd hitems (by simp)
  next its =>
    have h3 : its = items := by simpa using hitems
    subst h3
    obtain ⟨rl, hlen, hstruct⟩ := get_items_ok_struct (pyStrip q) fs g its hgi
    rw [hstruct]
    intro heq
    rcases List.append_eq_nil.mp heq with ⟨hmap, -⟩
    have hzip : ((single_dice_findall (pyStrip q)).zip rl).length = 0 := by
      rw [← List.length_map ((single_dice_findall (pyStrip q)).zip rl)
        (fun x => get_item_from_rolls fs x.2 x.2.sum (some x.1.2)), hmap]
      rfl
    rw [List.length_zip, hlen, Nat.min_self] at hzip
    exact hne (List.length_eq_zero.mp hzip)

theorem validation_implies_extraction_witness :
    single_dice_findall (pyStrip ("2d6").data) ≠ [] ∧
    [get_item_from_rolls fs0 [1, 1] 2 (some 6)] ≠ [] :=
  ⟨(validation_implies_extraction ("2d6").data fs0 g0 (by decide)).1,
   (validation_implies_extraction ("2d6").data fs0 g0 (by decide)).2
     [get_item_from_rolls fs0 [1, 1] 2 (some 6)] rfl⟩
